import Mathlib

/-!
Shallow embedding of the algo-trader matching engine (src/src/exchange.cpp,
src/include/exchange.h) and the cross-node market-data aggregation
(src/src/marketdata.cpp).  C++ `double` prices are modelled as `ℚ`,
C++ `int` fields as `ℤ`.  Definitions follow the source line by line;
the theorems below settle the frozen claims about the program.
-/

/-- Struct `Order` from include/exchange.h: a buy or sell order. -/
structure Order where
  agent_id : Int
  instrument_id : Int
  price : ℚ
  volume : Int
  is_buy : Bool
  timestamp : Int
  order_id : Int
deriving DecidableEq

/-- Struct `Trade` from include/exchange.h: an executed trade.  The fields are in
the order the C++ aggregate initializer uses in `match_orders`. -/
structure Trade where
  buy_agent_id : Int
  sell_agent_id : Int
  instrument_id : Int
  price : ℚ
  volume : Int
  timestamp : Int
deriving DecidableEq

/-- Struct `OrderBook`: resting bids and asks, the last trade price and the
append-only price history. -/
structure OrderBook where
  bids : List Order
  asks : List Order
  last_price : ℚ
  price_history : List ℚ
deriving DecidableEq

/-- The `OrderBook` constructor: `last_price(100.0)` and the history seeded
with that default price. -/
def OrderBook.init : OrderBook :=
  { bids := [], asks := [], last_price := 100, price_history := [100] }

/-- Comparator `bid_cmp` from exchange.cpp: higher price first, ties broken by earlier
timestamp. -/
def bid_cmp (a b : Order) : Prop :=
  if a.price ≠ b.price then a.price > b.price else a.timestamp < b.timestamp

/-- Comparator `ask_cmp` from exchange.cpp: lower price first, ties broken by earlier
timestamp. -/
def ask_cmp (a b : Order) : Prop :=
  if a.price ≠ b.price then a.price < b.price else a.timestamp < b.timestamp

instance : DecidableRel bid_cmp := fun a b => by
  unfold bid_cmp; infer_instance

instance : DecidableRel ask_cmp := fun a b => by
  unfold ask_cmp; infer_instance

/-- The postcondition relation of `std::sort(bids, bid_cmp)`: in the sorted
vector, for any `a` placed before `b`, `bid_cmp b a` does not hold. -/
def bidBefore (a b : Order) : Prop := ¬ bid_cmp b a

/-- The postcondition relation of `std::sort(asks, ask_cmp)`. -/
def askBefore (a b : Order) : Prop := ¬ ask_cmp b a

instance : DecidableRel bidBefore := fun a b => by
  unfold bidBefore; infer_instance

instance : DecidableRel askBefore := fun a b => by
  unfold askBefore; infer_instance

/-- Method `OrderBook::add_order`: append to the bid or ask vector. -/
def OrderBook.add_order (ob : OrderBook) (order : Order) : OrderBook :=
  if order.is_buy then { ob with bids := ob.bids ++ [order] }
  else { ob with asks := ob.asks ++ [order] }

/-- The `while (bi < bids.size() && ai < asks.size())` loop of
`OrderBook::match_orders`, acting on the sorted bid and ask vectors.  The
loop state `(bids[bi..], asks[ai..])` is passed as the two lists; erasing
the `[0, bi)` / `[0, ai)` prefixes at the end corresponds to returning the
remaining lists.  In the C++ loop, after `bid.volume -= vol; ask.volume -= vol`
with `vol = min(bid.volume, ask.volume)`, at least one side's volume is
exactly `0` and that side's index advances; the final `else` branch below is
therefore the case where only the ask advances. -/
def matchLoop (tick : Int) : List Order → List Order → List Trade × List Order × List Order
  | [], as => ([], [], as)
  | b :: bs, [] => ([], b :: bs, [])
  | bid :: bs, ask :: as =>
    if bid.price < ask.price then
      ([], bid :: bs, ask :: as)
    else
      let vol := min bid.volume ask.volume
      let t : Trade :=
        { buy_agent_id := bid.agent_id, sell_agent_id := ask.agent_id,
          instrument_id := bid.instrument_id,
          price := (bid.price + ask.price) * (1 / 2),
          volume := vol, timestamp := tick }
      if bid.volume - vol = 0 then
        if ask.volume - vol = 0 then
          let r := matchLoop tick bs as
          (t :: r.1, r.2)
        else
          let r := matchLoop tick bs ({ ask with volume := ask.volume - vol } :: as)
          (t :: r.1, r.2)
      else
        let r := matchLoop tick ({ bid with volume := bid.volume - vol } :: bs) as
        (t :: r.1, r.2)
termination_by bs as => bs.length + as.length
decreasing_by
  all_goals simp only [List.length_cons]
  all_goals omega

/-- Method `OrderBook::match_orders`: sort both sides, run the matching loop, erase
the filled prefixes, and record one `last_price` update and one
`price_history` entry per trade (the C++ performs these two updates inside
the loop, once per recorded trade, which accumulates to exactly this). -/
def OrderBook.match_orders (ob : OrderBook) (current_tick : Int) :
    List Trade × OrderBook :=
  let sortedBids := List.insertionSort bidBefore ob.bids
  let sortedAsks := List.insertionSort askBefore ob.asks
  let r := matchLoop current_tick sortedBids sortedAsks
  (r.1,
   { bids := r.2.1, asks := r.2.2,
     last_price := r.1.foldl (fun _ t => t.price) ob.last_price,
     price_history := ob.price_history ++ r.1.map Trade.price })

/-- Method `OrderBook::get_last_price`. -/
def OrderBook.get_last_price (ob : OrderBook) : ℚ := ob.last_price

/-- Method `OrderBook::get_historical_average`: mean of the whole price history
(`last_price` if the history were empty). -/
def OrderBook.get_historical_average (ob : OrderBook) : ℚ :=
  if ob.price_history = [] then ob.last_price
  else ob.price_history.sum / (ob.price_history.length : ℚ)

/-- Struct `Exchange` from include/exchange.h. -/
structure Exchange where
  rank : Int
  num_instruments : Int
  order_books : List OrderBook
  pending_orders : List Order
  trade_log : List Trade
  next_order_id : Int
deriving DecidableEq

/-- The `Exchange` constructor: `next_order_id(1)` and one default
`OrderBook` per instrument. -/
def Exchange.init (rank : Int) (num_instruments : Nat) : Exchange :=
  { rank := rank, num_instruments := (num_instruments : Int),
    order_books := List.replicate num_instruments OrderBook.init,
    pending_orders := [], trade_log := [], next_order_id := 1 }

/-- Method `Exchange::submit_order`: copy the order, stamp it with the next order
id, increment the counter and enqueue it (the mutex serializes concurrent
calls, so the embedding is the serialized sequence of submissions). -/
def Exchange.submit_order (ex : Exchange) (order : Order) : Exchange :=
  { ex with
    pending_orders := ex.pending_orders ++ [{ order with order_id := ex.next_order_id }],
    next_order_id := ex.next_order_id + 1 }

/-- Routing one drained pending order inside `Exchange::process_orders`:
`order_books[o.instrument_id].add_order(o)` for an in-range instrument id. -/
def routeInto (o : Order) : Nat → List OrderBook → List OrderBook
  | _, [] => []
  | 0, b :: bs => b.add_order o :: bs
  | n + 1, b :: bs => b :: routeInto o n bs

/-- The queue-draining phase of `Exchange::process_orders`: each pending
order is routed to its instrument's book when `0 ≤ instrument_id <
order_books.size()`, and silently skipped otherwise. -/
def drainPending (books : List OrderBook) (pending : List Order) : List OrderBook :=
  pending.foldl
    (fun bks o =>
      if 0 ≤ o.instrument_id ∧ o.instrument_id < (bks.length : Int) then
        routeInto o o.instrument_id.toNat bks
      else bks)
    books

/-- Method `Exchange::process_orders`: drain the pending queue into the books,
then call `match_orders` on every book in ascending instrument order,
appending all trades to the trade log; returns the new state and the
total trade count. -/
def Exchange.process_orders (ex : Exchange) (current_tick : Int) : Exchange × Int :=
  let routed := drainPending ex.order_books ex.pending_orders
  let results := routed.map (fun b => b.match_orders current_tick)
  let newTrades := (results.map Prod.fst).flatten
  ({ ex with
     order_books := results.map (fun r => r.2),
     pending_orders := [],
     trade_log := ex.trade_log ++ newTrades },
   (newTrades.length : Int))

/-- Method `Exchange::get_price`: the book's last price for an in-range instrument
id, `0.0` otherwise; a `const` query that does not modify the exchange. -/
def Exchange.get_price (ex : Exchange) (instrument_id : Int) : ℚ :=
  if 0 ≤ instrument_id ∧ instrument_id < (ex.order_books.length : Int) then
    (ex.order_books.getD instrument_id.toNat OrderBook.init).get_last_price
  else 0

/-- Method `Exchange::get_historical_average`: the book's historical average for an
in-range instrument id, `0.0` otherwise; also a `const` query. -/
def Exchange.get_historical_average (ex : Exchange) (instrument_id : Int) : ℚ :=
  if 0 ≤ instrument_id ∧ instrument_id < (ex.order_books.length : Int) then
    (ex.order_books.getD instrument_id.toNat OrderBook.init).get_historical_average
  else 0

/-- Method `Exchange::get_all_prices`. -/
def Exchange.get_all_prices (ex : Exchange) : List ℚ :=
  ex.order_books.map OrderBook.get_last_price

/-- Modelled from the spec: `MPI_Allreduce(..., MPI_SUM, MPI_COMM_WORLD)` in
`MarketDataManager::broadcast_prices` is external MPI library code; per the
spec it computes, for each position, the sum of that position's value
across all participating nodes' vectors. -/
def allreduceSum : List (List ℚ) → List ℚ
  | [] => []
  | [v] => v
  | v :: vs => List.zipWith (· + ·) v (allreduceSum vs)

/-- Method `MarketDataManager::broadcast_prices` for the whole collective: given
every node's local price vector, sum across ranks and divide each entry by
the communicator size (the number of participating nodes). -/
def broadcast_prices (vectors : List (List ℚ)) : List ℚ :=
  (allreduceSum vectors).map (fun v => v / (vectors.length : ℚ))

theorem bidBefore_iff (a b : Order) :
    bidBefore a b ↔ b.price ≤ a.price ∧ (a.price = b.price → a.timestamp ≤ b.timestamp) := by
  unfold bidBefore bid_cmp
  by_cases h : b.price = a.price
  · simp [h, not_lt]
  · simp [h, not_lt]
    intro _ he
    exact absurd he.symm h

theorem askBefore_iff (a b : Order) :
    askBefore a b ↔ a.price ≤ b.price ∧ (a.price = b.price → a.timestamp ≤ b.timestamp) := by
  unfold askBefore ask_cmp
  by_cases h : b.price = a.price
  · simp [h, not_lt]
  · simp [h, not_lt]
    intro _ he
    exact absurd he.symm h

instance : IsTotal Order bidBefore := by
  constructor
  intro a b
  rcases lt_trichotomy a.price b.price with h | h | h
  · exact Or.inr ((bidBefore_iff b a).mpr ⟨le_of_lt h, fun he => absurd he.symm (ne_of_lt h)⟩)
  · rcases le_total a.timestamp b.timestamp with ht | ht
    · exact Or.inl ((bidBefore_iff a b).mpr ⟨le_of_eq h.symm, fun _ => ht⟩)
    · exact Or.inr ((bidBefore_iff b a).mpr ⟨le_of_eq h, fun _ => ht⟩)
  · exact Or.inl ((bidBefore_iff a b).mpr ⟨le_of_lt h, fun he => absurd he (ne_of_gt h)⟩)

instance : IsTrans Order bidBefore := by
  constructor
  intro a b c hab hbc
  rw [bidBefore_iff] at hab hbc ⊢
  obtain ⟨h1, h2⟩ := hab
  obtain ⟨h3, h4⟩ := hbc
  refine ⟨le_trans h3 h1, fun he => ?_⟩
  have hba : b.price = a.price := le_antisymm h1 (by rw [he]; exact h3)
  exact le_trans (h2 hba.symm) (h4 (hba.trans he))

instance : IsTotal Order askBefore := by
  constructor
  intro a b
  rcases lt_trichotomy a.price b.price with h | h | h
  · exact Or.inl ((askBefore_iff a b).mpr ⟨le_of_lt h, fun he => absurd he (ne_of_lt h)⟩)
  · rcases le_total a.timestamp b.timestamp with ht | ht
    · exact Or.inl ((askBefore_iff a b).mpr ⟨le_of_eq h, fun _ => ht⟩)
    · exact Or.inr ((askBefore_iff b a).mpr ⟨le_of_eq h.symm, fun _ => ht⟩)
  · exact Or.inr ((askBefore_iff b a).mpr ⟨le_of_lt h, fun he => absurd he (ne_of_lt h)⟩)

instance : IsTrans Order askBefore := by
  constructor
  intro a b c hab hbc
  rw [askBefore_iff] at hab hbc ⊢
  obtain ⟨h1, h2⟩ := hab
  obtain ⟨h3, h4⟩ := hbc
  refine ⟨le_trans h1 h3, fun he => ?_⟩
  have hab2 : a.price = b.price := le_antisymm h1 (by rw [he]; exact h3)
  exact le_trans (h2 hab2) (h4 (hab2.symm.trans he))

theorem bid_cmp_volume_right (a b : Order) (v : Int) :
    bid_cmp a { b with volume := v } = bid_cmp a b := rfl

theorem ask_cmp_volume_right (a b : Order) (v : Int) :
    ask_cmp a { b with volume := v } = ask_cmp a b := rfl

theorem sorted_bids_cons_volume {bid : Order} {bs : List Order} (v : Int)
    (h : List.Sorted bidBefore (bid :: bs)) :
    List.Sorted bidBefore ({ bid with volume := v } :: bs) := by
  rw [List.sorted_cons] at h ⊢
  exact ⟨fun b hb => h.1 b hb, h.2⟩

theorem sorted_asks_cons_volume {ask : Order} {as : List Order} (v : Int)
    (h : List.Sorted askBefore (ask :: as)) :
    List.Sorted askBefore ({ ask with volume := v } :: as) := by
  rw [List.sorted_cons] at h ⊢
  exact ⟨fun a ha => h.1 a ha, h.2⟩

theorem bidBefore_price_le {a b : Order} (h : bidBefore a b) : b.price ≤ a.price :=
  ((bidBefore_iff a b).mp h).1

theorem askBefore_price_le {a b : Order} (h : askBefore a b) : a.price ≤ b.price :=
  ((askBefore_iff a b).mp h).1

theorem matchLoop_no_cross (tick : Int) (bs as : List Order) :
    List.Sorted bidBefore bs → List.Sorted askBefore as →
    ∀ b ∈ (matchLoop tick bs as).2.1, ∀ a ∈ (matchLoop tick bs as).2.2,
      b.price < a.price := by
  induction bs, as using matchLoop.induct tick with
  | case1 as =>
    intro _ _ b hb
    simp [matchLoop] at hb
  | case2 b bs =>
    intro _ _ b hb a ha
    simp [matchLoop] at ha
  | case3 bid bs ask as hlt =>
    intro hb ha b hmb a hma
    simp only [matchLoop, if_pos hlt] at hmb hma
    rw [List.sorted_cons] at hb ha
    rcases List.mem_cons.mp hmb with rfl | hmb2
    · rcases List.mem_cons.mp hma with rfl | hma2
      · exact hlt
      · exact lt_of_lt_of_le hlt (askBefore_price_le (ha.1 a hma2))
    · rcases List.mem_cons.mp hma with rfl | hma2
      · exact lt_of_le_of_lt (bidBefore_price_le (hb.1 b hmb2)) hlt
      · exact lt_of_le_of_lt (bidBefore_price_le (hb.1 b hmb2))
          (lt_of_lt_of_le hlt (askBefore_price_le (ha.1 a hma2)))
  | case4 bid bs ask as hlt vol hbv hav ih =>
    intro hb ha
    simp only [matchLoop, if_neg hlt, if_pos hbv, if_pos hav]
    exact ih (List.sorted_cons.mp hb).2 (List.sorted_cons.mp ha).2
  | case5 bid bs ask as hlt vol hbv hav ih =>
    intro hb ha
    simp only [matchLoop, if_neg hlt, if_pos hbv, if_neg hav]
    exact ih (List.sorted_cons.mp hb).2 (sorted_asks_cons_volume _ ha)
  | case6 bid bs ask as hlt vol hbv ih =>
    intro hb ha
    simp only [matchLoop, if_neg hlt, if_neg hbv]
    exact ih (sorted_bids_cons_volume _ hb) (List.sorted_cons.mp ha).2

/-- Claim C1: after `match_orders` returns, the book is never left crossed:
every remaining resting bid price is strictly below every remaining resting
ask price (so either a side is empty, or the highest remaining bid price is
strictly less than the lowest remaining ask price). -/
theorem match_orders_never_crossed (ob : OrderBook) (tick : Int) :
    ∀ b ∈ ((ob.match_orders tick).2).bids, ∀ a ∈ ((ob.match_orders tick).2).asks,
      b.price < a.price := by
  intro b hb a ha
  exact matchLoop_no_cross tick (List.insertionSort bidBefore ob.bids)
    (List.insertionSort askBefore ob.asks)
    (List.sorted_insertionSort bidBefore ob.bids)
    (List.sorted_insertionSort askBefore ob.asks) b hb a ha

def wBuy : Order :=
  { agent_id := 1, instrument_id := 0, price := 99, volume := 5,
    is_buy := true, timestamp := 0, order_id := 1 }

def wSell : Order :=
  { agent_id := 2, instrument_id := 0, price := 101, volume := 5,
    is_buy := false, timestamp := 0, order_id := 2 }

def wBook : OrderBook :=
  { bids := [wBuy], asks := [wSell], last_price := 100, price_history := [100] }

/-- Witness for claim C1, on a book left with one resting bid at 99 and one
resting ask at 101 after a matching pass. -/
theorem match_orders_never_crossed_witness : wBuy.price < wSell.price :=
  match_orders_never_crossed wBook 0 wBuy
    (by simp [wBook, wBuy, wSell, OrderBook.match_orders, matchLoop]; norm_num)
    wSell
    (by simp [wBook, wBuy, wSell, OrderBook.match_orders, matchLoop]; norm_num)

theorem matchLoop_volume_conservation (tick : Int) (bs as : List Order) :
    ((matchLoop tick bs as).1.map Trade.volume).sum
        + ((matchLoop tick bs as).2.1.map Order.volume).sum
      = (bs.map Order.volume).sum
    ∧ ((matchLoop tick bs as).1.map Trade.volume).sum
        + ((matchLoop tick bs as).2.2.map Order.volume).sum
      = (as.map Order.volume).sum := by
  induction bs, as using matchLoop.induct tick with
  | case1 as => simp [matchLoop]
  | case2 b bs => simp [matchLoop]
  | case3 bid bs ask as hlt => simp [matchLoop, if_pos hlt]
  | case4 bid bs ask as hlt vol hbv hav ih =>
    unfold vol at *
    simp only [matchLoop, if_neg hlt, if_pos hbv, if_pos hav, List.map_cons, List.sum_cons]
    obtain ⟨ih1, ih2⟩ := ih
    constructor <;> omega
  | case5 bid bs ask as hlt vol hbv hav ih =>
    unfold vol at *
    simp only [matchLoop, if_neg hlt, if_pos hbv, if_neg hav, List.map_cons, List.sum_cons]
    simp only [List.map_cons, List.sum_cons] at ih
    obtain ⟨ih1, ih2⟩ := ih
    constructor <;> omega
  | case6 bid bs ask as hlt vol hbv ih =>
    unfold vol at *
    simp only [matchLoop, if_neg hlt, if_neg hbv, List.map_cons, List.sum_cons]
    simp only [List.map_cons, List.sum_cons] at ih
    obtain ⟨ih1, ih2⟩ := ih
    rcases min_choice bid.volume ask.volume with h | h <;> constructor <;> omega

theorem matchLoop_volume_pos (tick : Int) (bs as : List Order) :
    (∀ o ∈ bs, 0 < o.volume) → (∀ o ∈ as, 0 < o.volume) →
    (∀ o ∈ (matchLoop tick bs as).2.1, 0 < o.volume)
      ∧ (∀ o ∈ (matchLoop tick bs as).2.2, 0 < o.volume) := by
  induction bs, as using matchLoop.induct tick with
  | case1 as =>
    intro _ ha
    simp only [matchLoop]
    exact ⟨by simp, ha⟩
  | case2 b bs =>
    intro hb _
    simp only [matchLoop]
    exact ⟨hb, by simp⟩
  | case3 bid bs ask as hlt =>
    intro hb ha
    simp only [matchLoop, if_pos hlt]
    exact ⟨hb, ha⟩
  | case4 bid bs ask as hlt vol hbv hav ih =>
    intro hb ha
    unfold vol at *
    simp only [matchLoop, if_neg hlt, if_pos hbv, if_pos hav]
    exact ih (fun o ho => hb o (List.mem_cons_of_mem _ ho))
      (fun o ho => ha o (List.mem_cons_of_mem _ ho))
  | case5 bid bs ask as hlt vol hbv hav ih =>
    intro hb ha
    unfold vol at *
    simp only [matchLoop, if_neg hlt, if_pos hbv, if_neg hav]
    refine ih (fun o ho => hb o (List.mem_cons_of_mem _ ho)) ?_
    intro o ho
    rcases List.mem_cons.mp ho with rfl | ho2
    · have h1 : min bid.volume ask.volume ≤ ask.volume := min_le_right _ _
      simp only []
      omega
    · exact ha o (List.mem_cons_of_mem _ ho2)
  | case6 bid bs ask as hlt vol hbv ih =>
    intro hb ha
    unfold vol at *
    simp only [matchLoop, if_neg hlt, if_neg hbv]
    refine ih ?_ (fun o ho => ha o (List.mem_cons_of_mem _ ho))
    intro o ho
    rcases List.mem_cons.mp ho with rfl | ho2
    · have h1 : min bid.volume ask.volume ≤ bid.volume := min_le_left _ _
      simp only []
      omega
    · exact hb o (List.mem_cons_of_mem _ ho2)

theorem matchLoop_trades_spec (tick : Int) (bs as : List Order) :
    (∀ o ∈ bs, 0 < o.volume) → (∀ o ∈ as, 0 < o.volume) →
    ∀ t ∈ (matchLoop tick bs as).1, ∃ b ∈ bs, ∃ a ∈ as,
      t.buy_agent_id = b.agent_id ∧ t.sell_agent_id = a.agent_id ∧
      t.instrument_id = b.instrument_id ∧
      t.price = (b.price + a.price) * (1 / 2) ∧
      t.timestamp = tick ∧
      0 < t.volume ∧ t.volume ≤ b.volume ∧ t.volume ≤ a.volume := by
  induction bs, as using matchLoop.induct tick with
  | case1 as =>
    intro _ _ t ht
    simp [matchLoop] at ht
  | case2 b bs =>
    intro _ _ t ht
    simp [matchLoop] at ht
  | case3 bid bs ask as hlt =>
    intro _ _ t ht
    simp [matchLoop, if_pos hlt] at ht
  | case4 bid bs ask as hlt vol hbv hav ih =>
    intro hb ha t ht
    unfold vol at *
    simp only [matchLoop, if_neg hlt, if_pos hbv, if_pos hav] at ht
    rcases List.mem_cons.mp ht with rfl | ht2
    · refine ⟨bid, List.mem_cons_self _ _, ask, List.mem_cons_self _ _, rfl, rfl, rfl, rfl, rfl,
        ?_, min_le_left _ _, min_le_right _ _⟩
      have h1 := hb bid (List.mem_cons_self _ _)
      have h2 := ha ask (List.mem_cons_self _ _)
      simp only []
      exact lt_min h1 h2
    · obtain ⟨b, hbm, a, ham, hs⟩ := ih (fun o ho => hb o (List.mem_cons_of_mem _ ho))
        (fun o ho => ha o (List.mem_cons_of_mem _ ho)) t ht2
      exact ⟨b, List.mem_cons_of_mem _ hbm, a, List.mem_cons_of_mem _ ham, hs⟩
  | case5 bid bs ask as hlt vol hbv hav ih =>
    intro hb ha t ht
    unfold vol at *
    simp only [matchLoop, if_neg hlt, if_pos hbv, if_neg hav] at ht
    rcases List.mem_cons.mp ht with rfl | ht2
    · refine ⟨bid, List.mem_cons_self _ _, ask, List.mem_cons_self _ _, rfl, rfl, rfl, rfl, rfl,
        ?_, min_le_left _ _, min_le_right _ _⟩
      have h1 := hb bid (List.mem_cons_self _ _)
      have h2 := ha ask (List.mem_cons_self _ _)
      simp only []
      exact lt_min h1 h2
    · have haskp : ∀ o ∈ ({ ask with volume := ask.volume - min bid.volume ask.volume } :: as),
          0 < o.volume := by
        intro o ho
        rcases List.mem_cons.mp ho with rfl | ho2
        · have h1 : min bid.volume ask.volume ≤ ask.volume := min_le_right _ _
          simp only []
          omega
        · exact ha o (List.mem_cons_of_mem _ ho2)
      obtain ⟨b, hbm, a, ham, hs1, hs2, hs3, hs4, hs5, hs6, hs7, hs8⟩ :=
        ih (fun o ho => hb o (List.mem_cons_of_mem _ ho)) haskp t ht2
      rcases List.mem_cons.mp ham with rfl | ham2
      · have h1 : min bid.volume ask.volume ≤ ask.volume := min_le_right _ _
        have h2 : 0 < min bid.volume ask.volume :=
          lt_min (hb bid (List.mem_cons_self _ _)) (ha ask (List.mem_cons_self _ _))
        refine ⟨b, List.mem_cons_of_mem _ hbm, ask, List.mem_cons_self _ _,
          hs1, hs2, hs3, hs4, hs5, hs6, hs7, ?_⟩
        simp only [] at hs8
        omega
      · exact ⟨b, List.mem_cons_of_mem _ hbm, a, List.mem_cons_of_mem _ ham2,
          hs1, hs2, hs3, hs4, hs5, hs6, hs7, hs8⟩
  | case6 bid bs ask as hlt vol hbv ih =>
    intro hb ha t ht
    unfold vol at *
    simp only [matchLoop, if_neg hlt, if_neg hbv] at ht
    rcases List.mem_cons.mp ht with rfl | ht2
    · refine ⟨bid, List.mem_cons_self _ _, ask, List.mem_cons_self _ _, rfl, rfl, rfl, rfl, rfl,
        ?_, min_le_left _ _, min_le_right _ _⟩
      have h1 := hb bid (List.mem_cons_self _ _)
      have h2 := ha ask (List.mem_cons_self _ _)
      simp only []
      exact lt_min h1 h2
    · have hbidp : ∀ o ∈ ({ bid with volume := bid.volume - min bid.volume ask.volume } :: bs),
          0 < o.volume := by
        intro o ho
        rcases List.mem_cons.mp ho with rfl | ho2
        · have h1 : min bid.volume ask.volume ≤ bid.volume := min_le_left _ _
          simp only []
          omega
        · exact hb o (List.mem_cons_of_mem _ ho2)
      obtain ⟨b, hbm, a, ham, hs1, hs2, hs3, hs4, hs5, hs6, hs7, hs8⟩ :=
        ih hbidp (fun o ho => ha o (List.mem_cons_of_mem _ ho)) t ht2
      rcases List.mem_cons.mp hbm with rfl | hbm2
      · have h1 : min bid.volume ask.volume ≤ bid.volume := min_le_left _ _
        have h2 : 0 < min bid.volume ask.volume :=
          lt_min (hb bid (List.mem_cons_self _ _)) (ha ask (List.mem_cons_self _ _))
        refine ⟨bid, List.mem_cons_self _ _, a, List.mem_cons_of_mem _ ham,
          hs1, hs2, hs3, hs4, hs5, hs6, ?_, hs8⟩
        simp only [] at hs7
        omega
      · exact ⟨b, List.mem_cons_of_mem _ hbm2, a, List.mem_cons_of_mem _ ham,
          hs1, hs2, hs3, hs4, hs5, hs6, hs7, hs8⟩

theorem matchLoop_head_step (tick : Int) (bid ask : Order) (bs as : List Order)
    (h : ¬ bid.price < ask.price) :
    (matchLoop tick (bid :: bs) (ask :: as)).1.head? =
      some { buy_agent_id := bid.agent_id, sell_agent_id := ask.agent_id,
             instrument_id := bid.instrument_id,
             price := (bid.price + ask.price) * (1 / 2),
             volume := min bid.volume ask.volume, timestamp := tick } := by
  simp only [matchLoop, if_neg h]
  split_ifs <;> rfl

/-- The content of claim C2 for one book and one matching pass: every trade
prices at the midpoint of the two resting orders it matched and executes
`min` of the two remaining volumes (stated exactly on the loop state by the
first conjunct, and against the original resting orders by the second);
total executed volume on each side equals the side's volume decrease, and
no resting order is driven below zero volume, so the volume executed
against any one order never exceeds its original volume. -/
def MatchTradeSpec (ob : OrderBook) (tick : Int) : Prop :=
  (∀ bid ask : Order, ∀ bs as : List Order, ¬ bid.price < ask.price →
      (matchLoop tick (bid :: bs) (ask :: as)).1.head? =
        some { buy_agent_id := bid.agent_id, sell_agent_id := ask.agent_id,
               instrument_id := bid.instrument_id,
               price := (bid.price + ask.price) * (1 / 2),
               volume := min bid.volume ask.volume, timestamp := tick })
  ∧ (∀ t ∈ (ob.match_orders tick).1, ∃ b ∈ ob.bids, ∃ a ∈ ob.asks,
       t.price = (b.price + a.price) * (1 / 2) ∧ 0 < t.volume ∧
       t.volume ≤ b.volume ∧ t.volume ≤ a.volume)
  ∧ ((ob.match_orders tick).1.map Trade.volume).sum
      + (((ob.match_orders tick).2).bids.map Order.volume).sum
      = (ob.bids.map Order.volume).sum
  ∧ ((ob.match_orders tick).1.map Trade.volume).sum
      + (((ob.match_orders tick).2).asks.map Order.volume).sum
      = (ob.asks.map Order.volume).sum
  ∧ (∀ o ∈ ((ob.match_orders tick).2).bids, 0 < o.volume)
  ∧ (∀ o ∈ ((ob.match_orders tick).2).asks, 0 < o.volume)

/-- Claim C2: trades execute at the bid/ask midpoint with volume
`min(remaining bid volume, remaining ask volume)`, and matching never
executes more volume against an order than it carries. -/
theorem match_orders_trade_spec (ob : OrderBook) (tick : Int)
    (hb : ∀ o ∈ ob.bids, 0 < o.volume) (ha : ∀ o ∈ ob.asks, 0 < o.volume) :
    MatchTradeSpec ob tick := by
  have hpb : ∀ o ∈ List.insertionSort bidBefore ob.bids, 0 < o.volume := fun o ho =>
    hb o ((List.perm_insertionSort bidBefore ob.bids).mem_iff.mp ho)
  have hpa : ∀ o ∈ List.insertionSort askBefore ob.asks, 0 < o.volume := fun o ho =>
    ha o ((List.perm_insertionSort askBefore ob.asks).mem_iff.mp ho)
  have hsb : ((List.insertionSort bidBefore ob.bids).map Order.volume).sum
      = (ob.bids.map Order.volume).sum :=
    ((List.perm_insertionSort bidBefore ob.bids).map Order.volume).sum_eq
  have hsa : ((List.insertionSort askBefore ob.asks).map Order.volume).sum
      = (ob.asks.map Order.volume).sum :=
    ((List.perm_insertionSort askBefore ob.asks).map Order.volume).sum_eq
  have hcons := matchLoop_volume_conservation tick (List.insertionSort bidBefore ob.bids)
    (List.insertionSort askBefore ob.asks)
  have hpos := matchLoop_volume_pos tick (List.insertionSort bidBefore ob.bids)
    (List.insertionSort askBefore ob.asks) hpb hpa
  refine ⟨fun bid ask bs as h => matchLoop_head_step tick bid ask bs as h, ?_, ?_, ?_, ?_, ?_⟩
  · intro t ht
    obtain ⟨b, hbm, a, ham, _, _, _, hs4, _, hs6, hs7, hs8⟩ :=
      matchLoop_trades_spec tick (List.insertionSort bidBefore ob.bids)
        (List.insertionSort askBefore ob.asks) hpb hpa t ht
    exact ⟨b, (List.perm_insertionSort bidBefore ob.bids).mem_iff.mp hbm,
      a, (List.perm_insertionSort askBefore ob.asks).mem_iff.mp ham,
      hs4, hs6, hs7, hs8⟩
  · exact hsb ▸ hcons.1
  · exact hsa ▸ hcons.2
  · exact hpos.1
  · exact hpos.2

def w2Buy : Order :=
  { agent_id := 1, instrument_id := 0, price := 101, volume := 10,
    is_buy := true, timestamp := 0, order_id := 1 }

def w2Sell : Order :=
  { agent_id := 2, instrument_id := 0, price := 99, volume := 10,
    is_buy := false, timestamp := 1, order_id := 2 }

def w2Book : OrderBook :=
  { bids := [w2Buy], asks := [w2Sell], last_price := 100, price_history := [100] }

/-- Witness for claim C2, on a book with one crossing bid and ask. -/
theorem match_orders_trade_spec_witness : MatchTradeSpec w2Book 0 :=
  match_orders_trade_spec w2Book 0
    (by intro o ho; simp [w2Book, w2Buy] at ho; simp [ho, w2Buy])
    (by intro o ho; simp [w2Book, w2Sell] at ho; simp [ho, w2Sell])

def buyB1 : Order :=
  { agent_id := 1, instrument_id := 0, price := 100, volume := 5,
    is_buy := true, timestamp := 0, order_id := 0 }

def buyB2 : Order :=
  { agent_id := 2, instrument_id := 0, price := 100, volume := 5,
    is_buy := true, timestamp := 1, order_id := 0 }

def sellB : Order :=
  { agent_id := 3, instrument_id := 0, price := 100, volume := 7,
    is_buy := false, timestamp := 2, order_id := 0 }

/-- Claim C3: among resting orders at equal price the earlier
`submission_tick` (the `timestamp` field) is matched first: both sorted
sides are ordered by nondecreasing timestamp within each price level, and
in the concrete scenario buy 5@100 (tick 0), buy 5@100 (tick 1),
sell 7@100 (tick 2), `process_orders` yields exactly two trades — the
tick-0 buy fully filled with volume 5, then the tick-1 buy partially
filled with volume 2 and left resting with volume 3 — with the sell fully
consumed. -/
theorem price_time_priority_scenarioB :
    (∀ l : List Order, (List.insertionSort bidBefore l).Pairwise
        (fun a b => a.price = b.price → a.timestamp ≤ b.timestamp))
    ∧ (∀ l : List Order, (List.insertionSort askBefore l).Pairwise
        (fun a b => a.price = b.price → a.timestamp ≤ b.timestamp))
    ∧ ((((Exchange.init 0 1).submit_order buyB1).submit_order buyB2).submit_order
          sellB).process_orders 2 =
      ({ rank := 0, num_instruments := 1,
         order_books := [{ bids := [{ buyB2 with order_id := 2, volume := 3 }], asks := [],
                           last_price := 100,
                           price_history := [100, 100, 100] }],
         pending_orders := [],
         trade_log := [{ buy_agent_id := 1, sell_agent_id := 3, instrument_id := 0,
                         price := 100, volume := 5, timestamp := 2 },
                       { buy_agent_id := 2, sell_agent_id := 3, instrument_id := 0,
                         price := 100, volume := 2, timestamp := 2 }],
         next_order_id := 4 }, 2) := by
  refine ⟨?_, ?_, ?_⟩
  · intro l
    exact (List.sorted_insertionSort bidBefore l).imp
      (fun h => ((bidBefore_iff _ _).mp h).2)
  · intro l
    exact (List.sorted_insertionSort askBefore l).imp
      (fun h => ((askBefore_iff _ _).mp h).2)
  · simp [Exchange.init, Exchange.submit_order, Exchange.process_orders, drainPending,
          routeInto, OrderBook.init, OrderBook.add_order, buyB1, buyB2, sellB,
          OrderBook.match_orders, matchLoop, bidBefore, askBefore, bid_cmp, ask_cmp,
          List.insertionSort, List.orderedInsert]
    norm_num

def buyA : Order :=
  { agent_id := 1, instrument_id := 0, price := 101, volume := 10,
    is_buy := true, timestamp := 0, order_id := 0 }

def sellA : Order :=
  { agent_id := 2, instrument_id := 0, price := 99, volume := 10,
    is_buy := false, timestamp := 1, order_id := 0 }

/-- Claim C5: on one instrument with an initially empty book, submitting
buy 10@101 (tick 0) and sell 10@99 (tick 1) and processing yields exactly
one trade of volume 10 at the midpoint price 100 = (101+99)/2, after which
both sides of the book are empty. -/
theorem scenarioA_midpoint_trade :
    (((Exchange.init 0 1).submit_order buyA).submit_order sellA).process_orders 1 =
      ({ rank := 0, num_instruments := 1,
         order_books := [{ bids := [], asks := [], last_price := 100,
                           price_history := [100, 100] }],
         pending_orders := [],
         trade_log := [{ buy_agent_id := 1, sell_agent_id := 2, instrument_id := 0,
                         price := 100, volume := 10, timestamp := 1 }],
         next_order_id := 3 }, 1) := by
  simp [Exchange.init, Exchange.submit_order, Exchange.process_orders, drainPending,
        routeInto, OrderBook.init, OrderBook.add_order, buyA, sellA,
        OrderBook.match_orders, matchLoop, bidBefore, askBefore, bid_cmp, ask_cmp]
  norm_num

/-- A sequence of `submit_order` calls (the mutex serializes concurrent
submitters, so any interleaving is some such sequence). -/
def submitAll (ex : Exchange) (orders : List Order) : Exchange :=
  orders.foldl Exchange.submit_order ex

theorem submitAll_spec (orders : List Order) : ∀ ex : Exchange,
    ∃ news : List Order,
      (submitAll ex orders).pending_orders = ex.pending_orders ++ news ∧
      news.map Order.order_id
        = (List.range orders.length).map (fun k : Nat => ex.next_order_id + (k : Int)) ∧
      (submitAll ex orders).next_order_id = ex.next_order_id + orders.length := by
  induction orders with
  | nil =>
    intro ex
    exact ⟨[], by simp [submitAll], by simp [submitAll], by simp [submitAll]⟩
  | cons o rest ih =>
    intro ex
    obtain ⟨news2, h1, h2, h3⟩ := ih (ex.submit_order o)
    have hstep : submitAll ex (o :: rest) = submitAll (ex.submit_order o) rest := rfl
    refine ⟨{ o with order_id := ex.next_order_id } :: news2, ?_, ?_, ?_⟩
    · rw [hstep, h1]
      simp [Exchange.submit_order]
    · rw [List.map_cons, List.length_cons, List.range_succ_eq_map, List.map_cons,
        List.map_map, h2]
      refine congrArg₂ _ (by simp) ?_
      refine List.map_congr_left ?_
      intro k _
      simp only [Function.comp_apply, Exchange.submit_order]
      push_cast
      ring
    · rw [hstep, h3]
      simp only [Exchange.submit_order, List.length_cons]
      push_cast
      ring

/-- Claim C4: for every sequence of submissions, the assigned order ids are
exactly `next_order_id, next_order_id+1, ...` in submission order, hence
strictly increasing and pairwise distinct, and every submitted order is
enqueued (none is lost). -/
theorem submit_order_ids_strictly_increasing (ex : Exchange) (orders : List Order) :
    ∃ news : List Order,
      (submitAll ex orders).pending_orders = ex.pending_orders ++ news ∧
      news.length = orders.length ∧
      news.map Order.order_id
        = (List.range orders.length).map (fun k : Nat => ex.next_order_id + (k : Int)) ∧
      (news.map Order.order_id).Pairwise (· < ·) ∧
      (news.map Order.order_id).Nodup := by
  obtain ⟨news, h1, h2, _⟩ := submitAll_spec orders ex
  have hlen : news.length = orders.length := by
    have hc := congrArg List.length h2
    rw [List.length_map, List.length_map, List.length_range] at hc
    exact hc
  have hpw : (news.map Order.order_id).Pairwise (· < ·) := by
    rw [h2, List.pairwise_map]
    exact (List.pairwise_lt_range _).imp (fun h => by omega)
  exact ⟨news, h1, hlen, h2, hpw, hpw.imp ne_of_lt⟩

theorem routeInto_length (o : Order) : ∀ (n : Nat) (books : List OrderBook),
    (routeInto o n books).length = books.length := by
  intro n
  induction n with
  | zero =>
    intro books
    cases books <;> simp [routeInto]
  | succ m ih =>
    intro books
    cases books with
    | nil => simp [routeInto]
    | cons b bs => simp [routeInto, ih bs]

theorem drainPending_filter (pending : List Order) : ∀ books : List OrderBook,
    drainPending books (pending.filter
      (fun o => decide (0 ≤ o.instrument_id ∧ o.instrument_id < (books.length : Int))))
      = drainPending books pending := by
  induction pending with
  | nil => intro books; rfl
  | cons o rest ih =>
    intro books
    by_cases h : 0 ≤ o.instrument_id ∧ o.instrument_id < (books.length : Int)
    · rw [List.filter_cons_of_pos (by simpa using h)]
      show drainPending (if 0 ≤ o.instrument_id ∧ o.instrument_id < (books.length : Int)
          then routeInto o o.instrument_id.toNat books else books) _
        = drainPending _ (o :: rest)
      rw [if_pos h]
      have hl := routeInto_length o o.instrument_id.toNat books
      conv_lhs => rw [← hl]
      rw [ih (routeInto o o.instrument_id.toNat books)]
      show _ = drainPending books (o :: rest)
      unfold drainPending
      rw [List.foldl_cons, if_pos h]
    · rw [List.filter_cons_of_neg (by simpa using h)]
      rw [ih books]
      show drainPending books rest = drainPending books (o :: rest)
      unfold drainPending
      rw [List.foldl_cons, if_neg h]

/-- Claim C6: `process_orders` silently drops every pending order whose
instrument id is out of range: processing is unchanged if those orders are
removed from the queue beforehand, no error is surfaced (the function is
total), and the in-range pending orders are routed and matched as usual. -/
theorem process_orders_drops_out_of_range (ex : Exchange) (tick : Int) :
    ex.process_orders tick =
      Exchange.process_orders
        { ex with pending_orders := (ex.pending_orders.filter
            (fun o => decide (0 ≤ o.instrument_id
              ∧ o.instrument_id < (ex.order_books.length : Int)))) } tick := by
  unfold Exchange.process_orders
  dsimp only
  rw [drainPending_filter]

/-- The `OrderBook` states reachable in the program: books are created by
the constructor and then mutated only by `add_order` and `match_orders`. -/
inductive BookReachable : OrderBook → Prop
  | init : BookReachable OrderBook.init
  | add (ob : OrderBook) (o : Order) :
      BookReachable ob → BookReachable (ob.add_order o)
  | step (ob : OrderBook) (t : Int) :
      BookReachable ob → BookReachable ((ob.match_orders t).2)

/-- Claim C7: for every reachable book, `price_history` is non-empty (it is
seeded at creation and `match_orders` appends exactly one entry per trade),
and `get_historical_average` returns the arithmetic mean of the entire
history, seed included. -/
theorem historical_average_mean (ob : OrderBook) (h : BookReachable ob) :
    ob.price_history ≠ [] ∧
    ob.get_historical_average = ob.price_history.sum / (ob.price_history.length : ℚ) ∧
    ∀ t : Int, ((ob.match_orders t).2).price_history
      = ob.price_history ++ ((ob.match_orders t).1).map Trade.price := by
  have hne : ob.price_history ≠ [] := by
    induction h with
    | init => simp [OrderBook.init]
    | add ob o _ ih =>
      unfold OrderBook.add_order
      split_ifs <;> exact ih
    | step ob t _ ih =>
      simp only [OrderBook.match_orders, ne_eq, List.append_eq_nil]
      intro hc
      exact ih hc.1
  refine ⟨hne, ?_, fun t => rfl⟩
  unfold OrderBook.get_historical_average
  rw [if_neg hne]

/-- Witness for claim C7 at the freshly constructed book. -/
theorem historical_average_mean_witness :
    OrderBook.init.price_history ≠ [] ∧
    OrderBook.init.get_historical_average
      = OrderBook.init.price_history.sum / (OrderBook.init.price_history.length : ℚ) ∧
    ∀ t : Int, ((OrderBook.init.match_orders t).2).price_history
      = OrderBook.init.price_history ++ ((OrderBook.init.match_orders t).1).map Trade.price :=
  historical_average_mean OrderBook.init BookReachable.init

theorem allreduceSum_getElem (vectors : List (List ℚ)) (m j : Nat) :
    vectors ≠ [] → (∀ v ∈ vectors, v.length = m) → j < m →
    (allreduceSum vectors)[j]? = some ((vectors.map (fun v => v.getD j 0)).sum) := by
  induction vectors using allreduceSum.induct with
  | case1 =>
    intro h
    exact absurd rfl h
  | case2 v =>
    intro _ hlen hj
    have hv : j < v.length := by rw [hlen v (by simp)]; exact hj
    simp [allreduceSum, List.getElem?_eq_getElem hv, List.getD_eq_getElem v 0 hv]
  | case3 v vs hne ih =>
    intro _ hlen hj
    have hv : j < v.length := by rw [hlen v (by simp)]; exact hj
    have hvs : vs ≠ [] := fun hc => hne hc
    have ih2 := ih hvs (fun w hw => hlen w (List.mem_cons_of_mem _ hw)) hj
    rcases vs with _ | ⟨w, ws⟩
    · exact absurd rfl hvs
    · show (List.zipWith (· + ·) v (allreduceSum (w :: ws)))[j]? = _
      rw [List.getElem?_zipWith, List.getElem?_eq_getElem hv, ih2]
      simp [List.getD_eq_getElem?_getD, List.getElem?_eq_getElem hv]

/-- Claim C8: the aggregate of the participating nodes' equal-length price
vectors carries, at every position, the exact arithmetic mean of that
position's values across the nodes: the cross-node sum divided by the
node count. -/
theorem broadcast_prices_mean (vectors : List (List ℚ)) (m j : Nat)
    (hne : vectors ≠ []) (hlen : ∀ v ∈ vectors, v.length = m) (hj : j < m) :
    (broadcast_prices vectors).getD j 0
      = (vectors.map (fun v => v.getD j 0)).sum / (vectors.length : ℚ) := by
  unfold broadcast_prices
  rw [List.getD_eq_getElem?_getD, List.getElem?_map,
    allreduceSum_getElem vectors m j hne hlen hj]
  simp [div_eq_mul_inv]

/-- Witness for claim C8 with two nodes and two instruments. -/
theorem broadcast_prices_mean_witness :
    (broadcast_prices [[1, 3], [3, 5]]).getD 0 0
      = (([[1, 3], [3, 5]] : List (List ℚ)).map (fun v => v.getD 0 0)).sum
        / (([[1, 3], [3, 5]] : List (List ℚ)).length : ℚ) :=
  broadcast_prices_mean [[1, 3], [3, 5]] 2 0 (by simp) (by simp) (by simp)

/-- Claim C10: for an out-of-range instrument id the read-only queries
`get_price` and `get_historical_average` return `0.0` instead of failing
(they are total `const` member functions, so the exchange state is
untouched). -/
theorem out_of_range_queries_zero (ex : Exchange) (instrument_id : Int)
    (h : instrument_id < 0 ∨ (ex.order_books.length : Int) ≤ instrument_id) :
    ex.get_price instrument_id = 0 ∧ ex.get_historical_average instrument_id = 0 := by
  have hc : ¬ (0 ≤ instrument_id ∧ instrument_id < (ex.order_books.length : Int)) := by
    rintro ⟨h1, h2⟩
    rcases h with h | h <;> omega
  unfold Exchange.get_price Exchange.get_historical_average
  rw [if_neg hc, if_neg hc]
  exact ⟨rfl, rfl⟩

/-- Witness for claim C10 at instrument id `-1` on a one-instrument
exchange. -/
theorem out_of_range_queries_zero_witness :
    (Exchange.init 0 1).get_price (-1) = 0
      ∧ (Exchange.init 0 1).get_historical_average (-1) = 0 :=
  out_of_range_queries_zero (Exchange.init 0 1) (-1) (by left; decide)

def zeroVolOrder : Order :=
  { agent_id := 1, instrument_id := 0, price := 100, volume := 0,
    is_buy := true, timestamp := 0, order_id := 0 }

def negVolOrder : Order :=
  { agent_id := 2, instrument_id := 0, price := 200, volume := -5,
    is_buy := false, timestamp := 1, order_id := 0 }

/-- Counterexample to claim C9 as stated: with no precondition on submitted
volume, submitting a buy with volume 0 and a (non-crossing) sell with
volume -5 and processing leaves both resting in the book after the
matching pass — one with volume 0 and one with negative volume. -/
theorem volume_invariant_cex :
    ((((Exchange.init 0 1).submit_order zeroVolOrder).submit_order
        negVolOrder).process_orders 0).1.order_books
      = [{ bids := [{ zeroVolOrder with order_id := 1 }],
           asks := [{ negVolOrder with order_id := 2 }],
           last_price := 100, price_history := [100] }]
    ∧ ({ zeroVolOrder with order_id := 1 } : Order).volume = 0
    ∧ ({ negVolOrder with order_id := 2 } : Order).volume < 0 := by
  refine ⟨?_, rfl, by decide⟩
  simp [Exchange.init, Exchange.submit_order, Exchange.process_orders, drainPending,
        routeInto, OrderBook.init, OrderBook.add_order, zeroVolOrder, negVolOrder,
        OrderBook.match_orders, matchLoop]
  norm_num

/-- All resting orders of a book carry strictly positive volume. -/
def BookVolumesPos (b : OrderBook) : Prop :=
  ∀ o ∈ b.bids ++ b.asks, 0 < o.volume

theorem add_order_volumes_pos {b : OrderBook} {o : Order}
    (hb : BookVolumesPos b) (ho : 0 < o.volume) :
    BookVolumesPos (b.add_order o) := by
  intro x hx
  unfold OrderBook.add_order at hx
  split_ifs at hx
  · simp only [List.mem_append, List.mem_singleton] at hx
    rcases hx with (hx | rfl) | hx
    · exact hb x (List.mem_append.mpr (Or.inl hx))
    · exact ho
    · exact hb x (List.mem_append.mpr (Or.inr hx))
  · simp only [List.mem_append, List.mem_singleton] at hx
    rcases hx with hx | (hx | rfl)
    · exact hb x (List.mem_append.mpr (Or.inl hx))
    · exact hb x (List.mem_append.mpr (Or.inr hx))
    · exact ho

theorem match_orders_volumes_pos {b : OrderBook} (t : Int)
    (hb : BookVolumesPos b) : BookVolumesPos ((b.match_orders t).2) := by
  have hpb : ∀ o ∈ List.insertionSort bidBefore b.bids, 0 < o.volume := fun o ho =>
    hb o (List.mem_append.mpr (Or.inl
      ((List.perm_insertionSort bidBefore b.bids).mem_iff.mp ho)))
  have hpa : ∀ o ∈ List.insertionSort askBefore b.asks, 0 < o.volume := fun o ho =>
    hb o (List.mem_append.mpr (Or.inr
      ((List.perm_insertionSort askBefore b.asks).mem_iff.mp ho)))
  have hpos := matchLoop_volume_pos t (List.insertionSort bidBefore b.bids)
    (List.insertionSort askBefore b.asks) hpb hpa
  intro x hx
  rcases List.mem_append.mp hx with hx | hx
  · exact hpos.1 x hx
  · exact hpos.2 x hx

theorem routeInto_volumes_pos {o : Order} (ho : 0 < o.volume) :
    ∀ (n : Nat) (books : List OrderBook), (∀ b ∈ books, BookVolumesPos b) →
    ∀ b ∈ routeInto o n books, BookVolumesPos b := by
  intro n
  induction n with
  | zero =>
    intro books hbooks b hb
    cases books with
    | nil => cases hb
    | cons c cs =>
      rcases List.mem_cons.mp hb with rfl | hb2
      · exact add_order_volumes_pos (hbooks c (List.mem_cons_self _ _)) ho
      · exact hbooks b (List.mem_cons_of_mem _ hb2)
  | succ m ih =>
    intro books hbooks b hb
    cases books with
    | nil => cases hb
    | cons c cs =>
      rcases List.mem_cons.mp hb with rfl | hb2
      · exact hbooks b (List.mem_cons_self _ _)
      · exact ih cs (fun x hx => hbooks x (List.mem_cons_of_mem _ hx)) b hb2

theorem drainPending_volumes_pos (pending : List Order) :
    ∀ books : List OrderBook, (∀ b ∈ books, BookVolumesPos b) →
    (∀ o ∈ pending, 0 < o.volume) →
    ∀ b ∈ drainPending books pending, BookVolumesPos b := by
  induction pending with
  | nil =>
    intro books hbooks _ b hb
    exact hbooks b hb
  | cons o rest ih =>
    intro books hbooks hp b hb
    have ho : 0 < o.volume := hp o (List.mem_cons_self _ _)
    have hrest : ∀ x ∈ rest, 0 < x.volume := fun x hx => hp x (List.mem_cons_of_mem _ hx)
    unfold drainPending at hb
    rw [List.foldl_cons] at hb
    by_cases h : 0 ≤ o.instrument_id ∧ o.instrument_id < (books.length : Int)
    · rw [if_pos h] at hb
      exact ih (routeInto o o.instrument_id.toNat books)
        (routeInto_volumes_pos ho _ books hbooks) hrest b hb
    · rw [if_neg h] at hb
      exact ih books hbooks hrest b hb

/-- The `Exchange` states reachable when every submitted order carries
strictly positive volume. -/
inductive ExReachable : Exchange → Prop
  | init (rank : Int) (n : Nat) : ExReachable (Exchange.init rank n)
  | submit (ex : Exchange) (o : Order) : 0 < o.volume →
      ExReachable ex → ExReachable (ex.submit_order o)
  | step (ex : Exchange) (t : Int) :
      ExReachable ex → ExReachable ((ex.process_orders t).1)

/-- Claim C9 (amended): provided every submitted order has positive volume,
every resting order's volume stays strictly positive — in particular it is
never negative and no volume-0 order remains resting after a matching
pass.  (As stated, the claim fails for unvalidated non-positive submitted
volumes; see the counterexample.) -/
theorem volume_positive_invariant (ex : Exchange) (h : ExReachable ex) :
    ∀ b ∈ ex.order_books, ∀ o ∈ b.bids ++ b.asks, 0 < o.volume := by
  have main : (∀ o ∈ ex.pending_orders, 0 < o.volume)
      ∧ ∀ b ∈ ex.order_books, BookVolumesPos b := by
    induction h with
    | init rank n =>
      constructor
      · intro o ho
        cases ho
      · intro b hb o ho
        have hb2 := List.eq_of_mem_replicate hb
        subst hb2
        simp [OrderBook.init] at ho
    | submit ex o ho _ ih =>
      constructor
      · intro x hx
        simp only [Exchange.submit_order, List.mem_append, List.mem_cons] at hx
        rcases hx with hx | rfl | hx
        · exact ih.1 x hx
        · exact ho
        · cases hx
      · exact ih.2
    | step ex t _ ih =>
      constructor
      · intro x hx
        cases hx
      · intro b hb
        simp only [Exchange.process_orders, List.map_map, List.mem_map] at hb
        obtain ⟨c, hc, rfl⟩ := hb
        exact match_orders_volumes_pos t
          (drainPending_volumes_pos ex.pending_orders ex.order_books ih.2 ih.1 c hc)
  exact main.2

/-- Witness for the amended claim C9: after processing buy 5@100, buy
5@100, sell 7@100 (all positive volumes), the partially filled resting
buy still has positive volume. -/
theorem volume_positive_invariant_witness :
    (0 : Int) < ({ buyB2 with order_id := 2, volume := 3 } : Order).volume := by
  have hreach : ExReachable (((((Exchange.init 0 1).submit_order buyB1).submit_order
      buyB2).submit_order sellB).process_orders 2).1 :=
    ExReachable.step _ 2 (ExReachable.submit _ _ (by decide)
      (ExReachable.submit _ _ (by decide)
        (ExReachable.submit _ _ (by decide) (ExReachable.init 0 1))))
  refine volume_positive_invariant _ hreach
    { bids := [{ buyB2 with order_id := 2, volume := 3 }], asks := [],
      last_price := 100, price_history := [100, 100, 100] } ?_
    { buyB2 with order_id := 2, volume := 3 } (by simp)
  simp [Exchange.init, Exchange.submit_order, Exchange.process_orders, drainPending,
        routeInto, OrderBook.init, OrderBook.add_order, buyB1, buyB2, sellB,
        OrderBook.match_orders, matchLoop, bidBefore, askBefore, bid_cmp, ask_cmp,
        List.insertionSort, List.orderedInsert]
  norm_num
